import Mathlib

/-!
Verification of the temporal context-window scheduler, the latent continuity
enforcement, the output stitcher and the keyframe-to-dense-conditioning
construction of `src/animatediff/generate.py`, via a shallow embedding of the
relevant functions into Lean.

Python dictionaries are modelled as association lists in insertion order:
`dictGet` returns the first binding of a key, and `dictSet` follows Python
dict assignment (update the existing slot in place when the key is present,
append a new binding otherwise).  File and device I/O performed by the
preprocessing helpers is abstracted by passing their results as parameters;
the control flow and data manipulation are translated statement by statement.
-/

section Dict

variable {K V : Type} [DecidableEq K]

/-- First binding of `k` in the association list `m` (Python `m[k]` /
`m.get(k)`; keys are unique in an actual dict, so first = only). -/
def dictGet (m : List (K × V)) (k : K) : Option V :=
  match m with
  | [] => none
  | p :: rest => if p.1 = k then some p.2 else dictGet rest k

/-- The keys of an association list, in insertion order. -/
def dictKeys (m : List (K × V)) : List K := m.map Prod.fst

/-- Python dict assignment `m[k] = v`: replace in place when present,
append otherwise. -/
def dictSet (m : List (K × V)) (k : K) (v : V) : List (K × V) :=
  if (dictKeys m).contains k then
    m.map (fun p => if p.1 = k then (k, v) else p)
  else m ++ [(k, v)]

theorem dictGet_eq_none_iff (m : List (K × V)) (k : K) :
    dictGet m k = none ↔ k ∉ dictKeys m := by
  induction m with
  | nil => simp [dictGet, dictKeys]
  | cons p rest ih =>
    simp only [dictGet, dictKeys, List.map_cons, List.mem_cons]
    split <;> rename_i h
    · simp [h]
    · simpa [dictKeys, Ne.symm h] using ih

theorem dictGet_isSome_iff (m : List (K × V)) (k : K) :
    (dictGet m k).isSome ↔ k ∈ dictKeys m := by
  rw [← Option.ne_none_iff_isSome, ne_eq, dictGet_eq_none_iff, not_not]

theorem dictGet_append_left {m : List (K × V)} (m2 : List (K × V)) {k : K}
    (h : k ∈ dictKeys m) : dictGet (m ++ m2) k = dictGet m k := by
  induction m with
  | nil => simp [dictKeys] at h
  | cons p rest ih =>
    simp only [List.cons_append, dictGet]
    split
    · rfl
    · rename_i hne
      refine ih ?_
      simp only [dictKeys, List.map_cons, List.mem_cons] at h
      rcases h with h | h
      · exact absurd h.symm hne
      · exact h

theorem dictSet_append_of_not_mem {m : List (K × V)} {k : K}
    (h : k ∉ dictKeys m) (v : V) : dictSet m k v = m ++ [(k, v)] := by
  unfold dictSet
  rw [if_neg]
  simpa using h

end Dict

/-! ## Context window segmenter: `segment_dict` (generate.py lines 1189-1240) -/

section Segmenter

variable {K V : Type} [DecidableEq K]

/-- The `while start < len(keys)` loop of `segment_dict`
(generate.py lines 1212-1240), with explicit fuel; `none` means the fuel ran
out (which never happens under the documented preconditions, see
`segment_dict_terminates`).  The pattern variables mirror the Python locals:
`start` is the window start pointer and `prevKeys` the
`previous_segment_keys` list. -/
def segLoop (dict : List (K × V)) (W O : ℕ) :
    ℕ → ℕ → List K → Option (List (List (K × V)) × List (List K))
  | 0, _, _ => none
  | fuel + 1, start, prevKeys =>
    if dict.length ≤ start then some ([], [])
    else
      -- pull the final window back so it ends exactly at the key count
      let s := if dict.length - start < W then dict.length - W else start
      let window := (dict.drop s).take W
      let ovl := (window.map Prod.fst).filter (fun k => decide (k ∈ prevKeys))
      if dict.length ≤ s + W then
        some ([window], [ovl])
      else
        match segLoop dict W O fuel (start + W - O) (window.map Prod.fst) with
        | none => none
        | some (segs, ovls) => some (window :: segs, ovl :: ovls)

/-- Embedding of `segment_dict(dictionary, segment_size, overlap)`
(generate.py lines 1189-1240): split a dictionary into windows of
`segment_size` keys and report, per window, the keys shared with the
previous window.  `none` models the raised `ValueError` when the dictionary
has fewer keys than `segment_size` (the fuel given to the loop is shown
sufficient in `segment_dict_terminates`). -/
def segment_dict (dictionary : List (K × V)) (segment_size overlap : ℕ) :
    Option (List (List (K × V)) × List (List K)) :=
  if dictionary.length < segment_size then none
  else if dictionary.length = segment_size then some ([dictionary], [])
  else segLoop dictionary segment_size overlap (dictionary.length + 1) 0 []

theorem segLoop_isSome (dict : List (K × V)) (W O : ℕ) (hO : O < W) :
    ∀ fuel start prevKeys, start < dict.length → dict.length ≤ fuel + start →
      (segLoop dict W O fuel start prevKeys).isSome := by
  intro fuel
  induction fuel with
  | zero => intro start prevKeys h1 h2; omega
  | succ n ih =>
    intro start prevKeys h1 h2
    rw [segLoop]
    rw [if_neg (by omega)]
    simp only
    split
    · -- final window pulled back: the break branch is taken
      rw [if_pos (by omega)]
      simp
    · rename_i hnopull
      split
      · simp
      · rename_i hbreak
        have h1' : start + W - O < dict.length := by omega
        have h2' : dict.length ≤ n + (start + W - O) := by omega
        rcases Option.isSome_iff_exists.mp (ih (start + W - O) _ h1' h2') with ⟨r, hr⟩
        rw [hr]
        cases r
        simp

/-- C10: under `segment_size ≤ │keys│` and `overlap < segment_size` the
segmentation loop terminates within its fuel, so `segment_dict` is total
(returns a value, never the fuel-exhaustion `none`). -/
theorem segment_dict_terminates (dict : List (K × V)) (W O : ℕ)
    (hW : W ≤ dict.length) (hO : O < W) :
    (segment_dict dict W O).isSome := by
  unfold segment_dict
  rw [if_neg (by omega)]
  split
  · simp
  · rename_i hne
    exact segLoop_isSome dict W O hO (dict.length + 1) 0 [] (by omega) (by omega)

/-- Witness for `segment_dict_terminates` at a concrete input. -/
theorem segment_dict_terminates_witness :
    (3 ≤ ([(0, "a"), (1, "b"), (2, "c")] : List (ℕ × String)).length ∧ 1 < 3) ∧
      (segment_dict [(0, "a"), (1, "b"), (2, "c")] 3 1).isSome :=
  ⟨⟨by decide, by decide⟩,
    segment_dict_terminates [(0, "a"), (1, "b"), (2, "c")] 3 1 (by decide) (by decide)⟩

/-- Concatenation of windows with each window's overlap-length prefix
dropped (every window; inside the loop the first window always has an empty
overlap list, so this agrees with taking window 0 whole). -/
def trimJoin (segs : List (List (K × V))) (ovls : List (List K)) : List (K × V) :=
  (List.zipWith (fun sg o => sg.drop o.length) segs ovls).join

/-- The stitched key sequence of the coverage claim: window 0 taken whole,
each later window with its overlap-keys prefix dropped. -/
def trimConcat (segs : List (List (K × V))) (ovls : List (List K)) : List (K × V) :=
  match segs with
  | [] => []
  | s0 :: rest => s0 ++ trimJoin rest (ovls.drop 1)

theorem trimJoin_cons (w : List (K × V)) (o : List K)
    (segs : List (List (K × V))) (ovls : List (List K)) :
    trimJoin (w :: segs) (o :: ovls) = w.drop o.length ++ trimJoin segs ovls := rfl

theorem trimJoin_single (w : List (K × V)) (o : List K) :
    trimJoin [w] [o] = w.drop o.length := by
  simp [trimJoin]

end Segmenter

section SliceLemmas

variable {α : Type}

theorem take_split (l : List α) (a m k : ℕ) (hk : k ≤ m) :
    (l.drop a).take m = (l.drop a).take k ++ (l.drop (a + k)).take (m - k) := by
  have h1 : m = k + (m - k) := by omega
  conv_lhs => rw [h1]
  rw [List.take_add, List.drop_drop]

theorem drop_take_comm (l : List α) (a b : ℕ) :
    (l.drop a).take (b - a) = (l.take b).drop a := by
  rw [List.drop_take]

end SliceLemmas

section SegmenterCoverage

variable {K V : Type} [DecidableEq K]

/-- Splitting one window of `segment_dict` at the end `e` of the previous
window: the computed overlap keys are exactly the window's key prefix up to
`e`, and dropping them leaves the key span from `e` to the window end. -/
theorem segWindow_split (dict : List (K × V)) (hnd : (dict.map Prod.fst).Nodup)
    {s e W : ℕ} (hse : s ≤ e) (heW : e ≤ s + W) (hpW : e - W ≤ s)
    (heN : e ≤ dict.length) :
    (((dict.drop s).take W).map Prod.fst).filter
        (fun k => decide (k ∈ ((dict.map Prod.fst).take e).drop (e - W))) =
      ((dict.drop s).take (e - s)).map Prod.fst ∧
    ((((dict.drop s).take W).map Prod.fst).filter
        (fun k => decide (k ∈ ((dict.map Prod.fst).take e).drop (e - W)))).length =
      e - s ∧
    ((dict.drop s).take W).drop (e - s) = (dict.drop e).take (s + W - e) ∧
    (((dict.drop s).take W).map Prod.fst).filter
        (fun k => decide (k ∈ ((dict.map Prod.fst).take e).drop (e - W))) =
      (((dict.drop s).take W).map Prod.fst).take (e - s) := by
  have hfil : (((dict.drop s).take W).map Prod.fst).filter
      (fun k => decide (k ∈ ((dict.map Prod.fst).take e).drop (e - W))) =
      ((dict.drop s).take (e - s)).map Prod.fst := by
    rw [List.map_take, List.map_take, List.map_drop]
    rw [take_split (dict.map Prod.fst) s W (e - s) (by omega)]
    have h2 : s + (e - s) = e := by omega
    have h3 : W - (e - s) = s + W - e := by omega
    rw [h2, h3, List.filter_append]
    have hfirst :
        (((dict.map Prod.fst).drop s).take (e - s)).filter
          (fun k => decide (k ∈ ((dict.map Prod.fst).take e).drop (e - W))) =
        ((dict.map Prod.fst).drop s).take (e - s) := by
      rw [List.filter_eq_self]
      intro a ha
      rw [decide_eq_true_eq]
      rw [drop_take_comm] at ha
      have hdd : ((dict.map Prod.fst).take e).drop s =
          (((dict.map Prod.fst).take e).drop (e - W)).drop (s - (e - W)) := by
        rw [List.drop_drop]
        congr 1
        omega
      rw [hdd] at ha
      exact List.mem_of_mem_drop ha
    have hsecond :
        (((dict.map Prod.fst).drop e).take (s + W - e)).filter
          (fun k => decide (k ∈ ((dict.map Prod.fst).take e).drop (e - W))) = [] := by
      rw [List.filter_eq_nil_iff]
      intro a ha
      rw [Bool.not_eq_true, decide_eq_false_iff_not]
      intro hmem
      have h1 : a ∈ (dict.map Prod.fst).drop e := List.mem_of_mem_take ha
      have h2 : a ∈ (dict.map Prod.fst).take e := List.mem_of_mem_drop hmem
      exact List.disjoint_take_drop hnd (le_refl e) h2 h1
    rw [hfirst, hsecond, List.append_nil]
  have hlen : (((dict.drop s).take (e - s)).map Prod.fst).length = e - s := by
    simp only [List.length_map, List.length_take, List.length_drop]
    omega
  refine ⟨hfil, ?_, ?_, ?_⟩
  · rw [hfil, hlen]
  · rw [List.drop_take, List.drop_drop]
    have h2 : s + (e - s) = e := by omega
    have h3 : W - (e - s) = s + W - e := by omega
    rw [h2, h3]
  · rw [hfil, List.map_take, List.map_take, List.map_drop, List.take_take]
    congr 1
    omega

/-- Invariant of the `segment_dict` loop: started just after a previous
window ending at key index `e`, the loop returns windows whose
overlap-trimmed concatenation is exactly the remaining key span
`dict.drop e`, and every overlap-keys list is a prefix of its window's
keys. -/
theorem segLoop_cov (dict : List (K × V)) (W O : ℕ) (hO : O < W)
    (hnd : (dict.map Prod.fst).Nodup) (hWN : W < dict.length) :
    ∀ fuel start e,
      start < dict.length → dict.length ≤ fuel + start → e < dict.length →
      (e = 0 ∨ W ≤ e) → start = e - O →
      ∃ segs ovls,
        segLoop dict W O fuel start (((dict.map Prod.fst).take e).drop (e - W)) =
          some (segs, ovls) ∧
        trimJoin segs ovls = dict.drop e ∧
        List.Forall₂ (fun sg o => o = (List.map Prod.fst sg).take o.length) segs ovls := by
  intro fuel
  induction fuel with
  | zero => intro start e h1 h2 _ _ _; omega
  | succ n ih =>
    intro start e h1 h2 he heOr hsO
    have hE : e ≤ start + O ∧ start ≤ e := by rcases heOr with h | h <;> omega
    rw [segLoop, if_neg (by omega)]
    simp only
    split
    · rename_i hpull
      -- final window pulled back to end exactly at the key count: break
      have hbrk : dict.length ≤ dict.length - W + W := by omega
      rw [if_pos hbrk]
      obtain ⟨hfil, hlen, hdrop, hpre⟩ := segWindow_split dict hnd
        (s := dict.length - W) (e := e) (W := W)
        (by omega) (by omega) (by omega) (by omega)
      refine ⟨_, _, rfl, ?_, ?_⟩
      · rw [trimJoin_single, hlen, hdrop]
        have hall : (dict.drop e).length ≤ dict.length - W + W - e := by
          rw [List.length_drop]; omega
        rw [List.take_of_length_le hall]
      · exact List.Forall₂.cons (by rw [hlen]; exact hpre) List.Forall₂.nil
    · rename_i hnopull
      obtain ⟨hfil, hlen, hdrop, hpre⟩ := segWindow_split dict hnd
        (s := start) (e := e) (W := W)
        (by omega) (by omega) (by omega) (by omega)
      split
      · rename_i hbrk
        refine ⟨_, _, rfl, ?_, ?_⟩
        · rw [trimJoin_single, hlen, hdrop]
          have hall : (dict.drop e).length ≤ start + W - e := by
            rw [List.length_drop]; omega
          rw [List.take_of_length_le hall]
        · exact List.Forall₂.cons (by rw [hlen]; exact hpre) List.Forall₂.nil
      · rename_i hbrk
        have h1' : start + W - O < dict.length := by omega
        have h2' : dict.length ≤ n + (start + W - O) := by omega
        have he' : start + W < dict.length := by omega
        obtain ⟨segs, ovls, hloop, htrim, hfa⟩ :=
          ih (start + W - O) (start + W) h1' h2' he' (Or.inr (by omega)) (by omega)
        have hprev : ((dict.map Prod.fst).take (start + W)).drop (start + W - W) =
            ((dict.drop start).take W).map Prod.fst := by
          rw [List.map_take, List.map_drop]
          have h4 : start + W - W = start := by omega
          have h5 : W = start + W - start := by omega
          rw [h4]
          conv_rhs => rw [h5, drop_take_comm]
        rw [hprev] at hloop
        rw [hloop]
        refine ⟨_, _, rfl, ?_, ?_⟩
        · rw [trimJoin_cons, hlen, hdrop, htrim]
          have hdd : dict.drop (start + W) = (dict.drop e).drop (start + W - e) := by
            rw [List.drop_drop]
            congr 1
            omega
          rw [hdd, List.take_append_drop]
        · exact List.Forall₂.cons (by rw [hlen]; exact hpre) hfa

/-- C1 (Segmenter coverage): for distinct keys with
`│keys│ ≥ segment_size > overlap ≥ 0`, `segment_dict` succeeds, every
later window's overlap-keys list is a prefix of that window's keys, and
concatenating window 0 whole with each later window minus its
overlap-keys prefix reproduces the original dictionary exactly — in
order, with no gaps and no duplicates outside the declared overlaps. -/
theorem segment_dict_coverage (dict : List (K × V)) (W O : ℕ)
    (hnd : (dict.map Prod.fst).Nodup) (hW : W ≤ dict.length) (hO : O < W) :
    ∃ segs ovls, segment_dict dict W O = some (segs, ovls) ∧
      List.Forall₂ (fun sg o => o = (List.map Prod.fst sg).take o.length)
        (segs.drop 1) (ovls.drop 1) ∧
      trimConcat segs ovls = dict := by
  unfold segment_dict
  rw [if_neg (by omega)]
  split
  · rename_i heq
    exact ⟨[dict], [], rfl, List.Forall₂.nil, by simp [trimConcat, trimJoin]⟩
  · rename_i hne
    have hWN : W < dict.length := by omega
    rw [segLoop, if_neg (by omega)]
    simp only
    have hs0 : ¬(dict.length - 0 < W) := by omega
    rw [if_neg hs0]
    rw [if_neg (by omega : ¬(dict.length ≤ 0 + W))]
    have hfil0 : ((((dict.drop 0).take W).map Prod.fst).filter
        (fun k => decide (k ∈ ([] : List K)))) = [] := by
      rw [List.filter_eq_nil_iff]
      intro a _
      simp
    obtain ⟨segs, ovls, hloop, htrim, hfa⟩ :=
      segLoop_cov dict W O hO hnd hWN dict.length (0 + W - O) W
        (by omega) (by omega) (by omega) (Or.inr (by omega)) (by omega)
    have hprev : ((dict.map Prod.fst).take W).drop (W - W) =
        ((dict.drop 0).take W).map Prod.fst := by
      rw [List.map_take, List.map_drop]
      have h4 : W - W = 0 := by omega
      rw [h4, List.drop_zero, List.drop_zero]
    rw [hprev] at hloop
    rw [hloop, hfil0]
    refine ⟨_, _, rfl, by simpa using hfa, ?_⟩
    simp only [trimConcat, List.drop_succ_cons, List.drop_zero]
    rw [htrim]
    exact List.take_append_drop W dict

/-- Witness for `segment_dict_coverage` at a concrete input. -/
theorem segment_dict_coverage_witness :
    (([(0, "a"), (1, "b"), (2, "c"), (3, "d"), (4, "e")] : List (ℕ × String)).map
        Prod.fst).Nodup ∧
    (∃ segs ovls,
      segment_dict [(0, "a"), (1, "b"), (2, "c"), (3, "d"), (4, "e")] 3 1 =
        some (segs, ovls) ∧
      List.Forall₂ (fun sg o => o = (List.map Prod.fst sg).take o.length)
        (segs.drop 1) (ovls.drop 1) ∧
      trimConcat segs ovls = [(0, "a"), (1, "b"), (2, "c"), (3, "d"), (4, "e")]) :=
  ⟨by decide,
    segment_dict_coverage [(0, "a"), (1, "b"), (2, "c"), (3, "d"), (4, "e")] 3 1
      (by decide) (by decide) (by decide)⟩

end SegmenterCoverage

/-! ## Latent continuity enforcement: `example_callback` (generate.py lines 1254-1271) -/

section Continuity

variable {K α : Type}

/-- The overlap-copy loop of `example_callback` (generate.py lines
1267-1271): for each position `i` of the current window's overlap-keys
list, overwrite frame `i` of the current latent buffer with frame
`frame_count − overlap_count + i` of the previous window's cached buffer.
A latent buffer is modelled as the list of its frame-axis slices (the
batch, channel, height and width axes ride along inside `α`).  `d` stands
for the out-of-bounds read Python would fault on; it is never used when
the buffers have equal frame counts. -/
def copyOverlapFrames (prev cur : List α) (count : ℕ) (d : α) : List α :=
  (List.range count).foldl
    (fun c i => c.set i (prev.getD (c.length - count + i) d)) cur

/-- Embedding of `example_callback(idx, iteration, t, latents)` with `debug=False`
(generate.py lines 1254-1271): store the buffer in the latents cache under
`(idx, iteration)`, then for a window index `idx > 0` copy the trailing
frames of the previous window's cached buffer at the same iteration over
the current buffer's overlap prefix, in place.  The cache is a map from
window and iteration index to a buffer; because Python stores the very
buffer object it then mutates, the model caches the mutated buffer.
`none` models the `KeyError`/`IndexError` when the previous window's
buffer or the overlap entry is missing. -/
def example_callback (overlaps : List (List K)) (cache : ℕ → ℕ → Option (List α))
    (idx iteration : ℕ) (latents : List α) (d : α) :
    Option ((ℕ → ℕ → Option (List α)) × List α) :=
  if 0 < idx then
    match overlaps[idx]?, cache (idx - 1) iteration with
    | some ovl, some last_latents =>
      let newLat := copyOverlapFrames last_latents latents ovl.length d
      some (fun a b => if a = idx ∧ b = iteration then some newLat else cache a b,
        newLat)
    | _, _ => none
  else
    some (fun a b => if a = idx ∧ b = iteration then some latents else cache a b,
      latents)

theorem copyOverlapFrames_spec (prev cur : List α) (count : ℕ) (d : α)
    (hcount : count ≤ cur.length) (hlen : cur.length ≤ prev.length) :
    (copyOverlapFrames prev cur count d).length = cur.length ∧
    ∀ j, (copyOverlapFrames prev cur count d)[j]? =
      if j < count then prev[cur.length - count + j]? else cur[j]? := by
  suffices h : ∀ m, m ≤ count →
      ((List.range m).foldl
          (fun c i => c.set i (prev.getD (c.length - count + i) d)) cur).length =
        cur.length ∧
      ∀ j, ((List.range m).foldl
          (fun c i => c.set i (prev.getD (c.length - count + i) d)) cur)[j]? =
        if j < m then prev[cur.length - count + j]? else cur[j]? by
    exact h count (le_refl count)
  intro m
  induction m with
  | zero =>
    intro _
    refine ⟨rfl, fun j => ?_⟩
    rw [if_neg (by omega)]
    simp [List.range_zero]
  | succ n ih =>
    intro hm
    obtain ⟨ihlen, ihget⟩ := ih (by omega)
    rw [List.range_succ, List.foldl_append]
    simp only [List.foldl_cons, List.foldl_nil]
    constructor
    · rw [List.length_set, ihlen]
    · intro j
      rw [List.getElem?_set, ihlen]
      have hread : cur.length - count + n < prev.length := by omega
      split
      · rename_i hjn
        subst hjn
        rw [if_pos (by omega), if_pos (by omega)]
        rw [List.getD_eq_getElem?_getD, List.getElem?_eq_getElem hread]
        rfl
      · rename_i hjn
        rw [ihget j]
        by_cases hj : j < n
        · rw [if_pos hj, if_pos (by omega)]
        · rw [if_neg hj, if_neg (by omega)]

/-- C2 (latent continuity enforcement): for every window index `idx > 0`
and every iteration, when the previous window's buffer at the same
iteration is cached and has the same frame count, the callback succeeds
and afterwards, for each position `i` in the current window's
overlap-keys list, frame `i` of the buffer equals frame
`frame_count − overlap_count + i` of the previous window's cached buffer
at the same iteration, while frames outside the overlap prefix are left
unchanged; the mutated buffer is also what the cache now holds at
`(idx, iteration)`. -/
theorem example_callback_continuity (overlaps : List (List K))
    (cache : ℕ → ℕ → Option (List α)) (idx iteration : ℕ)
    (latents prev : List α) (d : α) (ovl : List K)
    (hidx : 0 < idx) (hovl : overlaps[idx]? = some ovl)
    (hcache : cache (idx - 1) iteration = some prev)
    (hlen : prev.length = latents.length) (hcount : ovl.length ≤ latents.length) :
    ∃ newLat,
      example_callback overlaps cache idx iteration latents d =
        some (fun a b => if a = idx ∧ b = iteration then some newLat else cache a b,
          newLat) ∧
      newLat.length = latents.length ∧
      (∀ i, i < ovl.length →
        newLat[i]? = prev[latents.length - ovl.length + i]?) ∧
      (∀ i, ovl.length ≤ i → newLat[i]? = latents[i]?) := by
  obtain ⟨hclen, hcget⟩ :=
    copyOverlapFrames_spec prev latents ovl.length d hcount (by omega)
  refine ⟨copyOverlapFrames prev latents ovl.length d, ?_, hclen, ?_, ?_⟩
  · unfold example_callback
    rw [if_pos hidx, hovl, hcache]
  · intro i hi
    rw [hcget i, if_pos hi]
  · intro i hi
    rw [hcget i, if_neg (by omega)]

/-- Witness for `example_callback_continuity` at a concrete input:
two windows sharing one overlap frame. -/
theorem example_callback_continuity_witness :
    (0 < 1 ∧ ([[], [7]] : List (List ℕ))[1]? = some [7] ∧
      (fun a b => if a = 0 ∧ b = 0 then some [10, 20] else none) 0 0 =
        some ([10, 20] : List ℚ) ∧
      ([10, 20] : List ℚ).length = ([1, 2] : List ℚ).length ∧
      ([7] : List ℕ).length ≤ ([1, 2] : List ℚ).length) ∧
    ∃ newLat,
      example_callback [[], [7]]
          (fun a b => if a = 0 ∧ b = 0 then some [10, 20] else none) 1 0 [1, 2] 0 =
        some (fun a b => if a = 1 ∧ b = 0 then some newLat
          else (fun a b => if a = 0 ∧ b = 0 then some ([10, 20] : List ℚ) else none) a b,
          newLat) ∧
      newLat.length = ([1, 2] : List ℚ).length ∧
      (∀ i, i < ([7] : List ℕ).length →
        newLat[i]? = ([10, 20] : List ℚ)[([1, 2] : List ℚ).length - ([7] : List ℕ).length + i]?) ∧
      (∀ i, ([7] : List ℕ).length ≤ i → newLat[i]? = ([1, 2] : List ℚ)[i]?) :=
  ⟨⟨by decide, by decide, by simp, by decide, by decide⟩,
    example_callback_continuity [[], [7]]
      (fun a b => if a = 0 ∧ b = 0 then some [10, 20] else none) 1 0 [1, 2] [10, 20] 0 [7]
      (by decide) (by decide) (by simp) (by decide) (by decide)⟩

end Continuity

/-! ## Output stitcher: `combine_videos` (generate.py lines 1343-1372) -/

section Stitcher

variable {K α : Type}

/-- A per-window output buffer in one of the two supported
representations: `tensor` models a `torch.Tensor` indexed
`[batch, channel, frame, height, width]` and `plain` a NumPy `ndarray`;
both are modelled as the list of their frame-axis slices (dim/axis 2). -/
inductive Video (α : Type) where
  | tensor (frames : List α)
  | plain (frames : List α)
deriving DecidableEq

/-- Embedding of `combine_videos(videos, overlaps)` (generate.py lines 1343-1372).
When `videos[0]` is a tensor, window 0 is taken whole and every later
window has its leading `len(overlaps[i])` frames dropped before
concatenation along the frame axis (`torch.cat(..., dim=2)`); when
`videos[0]` is a plain array, `np.concatenate(videos, axis=2)` joins ALL
windows whole, dropping nothing.  `none` models the raised errors
(empty input, overlap index out of range, or a non-tensor later window in
the tensor branch; NumPy coercion of mixed inputs is not modelled and
also maps to `none`). -/
def combine_videos (videos : List (Video α)) (overlaps : List (List K)) :
    Option (Video α) :=
  match videos with
  | [] => none
  | Video.tensor f0 :: rest =>
    ((rest.enumFrom 1).foldl (fun acc p =>
      match acc, p.2, overlaps[p.1]? with
      | some c, Video.tensor f, some ov => some (c ++ f.drop ov.length)
      | _, _, _ => none) (some f0)).map Video.tensor
  | Video.plain f0 :: rest =>
    if rest.all (fun v => match v with | Video.plain _ => true | _ => false) then
      some (Video.plain (f0 ++ (rest.map (fun v =>
        match v with | Video.plain f => f | Video.tensor f => f)).join))
    else none

/-- C3, counterexample to the claim as stated: in the plain-array
representation the stitcher does NOT drop the leading overlap frames of
later windows — two plain windows `[0,1]` and `[2,3]` with one declared
overlap key yield `[0,1,2,3]`, not the trimmed `[0,1,3]` the claim
predicts (so the frame count is 4, not the 3 distinct keys). -/
theorem combine_videos_plain_counterexample :
    combine_videos [Video.plain [0, 1], Video.plain [2, 3]]
        ([[], [9]] : List (List ℕ)) = some (Video.plain ([0, 1, 2, 3] : List ℕ)) ∧
      some (Video.plain ([0, 1, 2, 3] : List ℕ)) ≠
        some (Video.plain (([0, 1] : List ℕ) ++
          List.drop ([9] : List ℕ).length [2, 3])) := by
  constructor
  · rfl
  · decide

theorem combine_videos_tensor_fold (overlaps : List (List K)) :
    ∀ (fs : List (List α)) (i : ℕ) (c : List α), i + fs.length ≤ overlaps.length →
      ((fs.map Video.tensor).enumFrom i).foldl (fun acc p =>
          match acc, p.2, overlaps[p.1]? with
          | some c, Video.tensor f, some ov => some (c ++ f.drop ov.length)
          | _, _, _ => none) (some c) =
        some (c ++ ((fs.zip (overlaps.drop i)).map
          (fun p => p.1.drop p.2.length)).join) := by
  intro fs
  induction fs with
  | nil => intro i c _; simp
  | cons f fs ih =>
    intro i c hlen
    have hi : i < overlaps.length := by simp at hlen; omega
    rw [List.map_cons, List.enumFrom_cons, List.foldl_cons]
    simp only [List.getElem?_eq_getElem hi]
    rw [ih (i + 1) (c ++ f.drop overlaps[i].length) (by simp at hlen ⊢; omega)]
    rw [List.drop_eq_getElem_cons hi, List.zip_cons_cons, List.map_cons,
      List.join]
    simp [List.append_assoc]

/-- C3, amended: for a non-empty uniform sequence of window outputs, the
stitcher is representation-preserving; in the tensor representation it
takes output 0 whole and drops the leading `len(overlaps[i])` frames of
each later output `i` before concatenating along the frame axis, while in
the plain-array representation it concatenates every output whole,
dropping nothing (so only the tensor branch's frame count matches the
trimmed total). -/
theorem combine_videos_spec (f0 : List α) (fs : List (List α))
    (overlaps : List (List K)) (hlen : 1 + fs.length ≤ overlaps.length) :
    combine_videos (Video.tensor f0 :: fs.map Video.tensor) overlaps =
      some (Video.tensor (f0 ++ ((fs.zip (overlaps.drop 1)).map
        (fun p => p.1.drop p.2.length)).join)) ∧
    combine_videos (Video.plain f0 :: fs.map Video.plain) overlaps =
      some (Video.plain (f0 ++ fs.join)) := by
  constructor
  · show (((fs.map Video.tensor).enumFrom 1).foldl (fun acc p =>
        match acc, p.2, overlaps[p.1]? with
        | some c, Video.tensor f, some ov => some (c ++ f.drop ov.length)
        | _, _, _ => none) (some f0)).map Video.tensor = _
    rw [combine_videos_tensor_fold overlaps fs 1 f0 hlen]
    rfl
  · show (if (fs.map Video.plain).all
        (fun v => match v with | Video.plain _ => true | _ => false) then
      some (Video.plain (f0 ++ ((fs.map Video.plain).map (fun v =>
        match v with | Video.plain f => f | Video.tensor f => f)).join))
    else none) = _
    rw [if_pos]
    · have hframes : (fs.map Video.plain).map (fun v =>
          match v with | Video.plain f => f | Video.tensor f => f) = fs := by
        rw [List.map_map]
        exact List.map_id fs
      rw [hframes]
    · rw [List.all_eq_true]
      intro x hx
      rcases List.mem_map.mp hx with ⟨f, _, rfl⟩
      rfl

/-- Witness for `combine_videos_spec` at a concrete input. -/
theorem combine_videos_spec_witness :
    1 + ([[2, 3], [4, 5]] : List (List ℕ)).length ≤
        ([[], [9], [8, 7]] : List (List ℕ)).length ∧
      (combine_videos
          (Video.tensor [0, 1] :: ([[2, 3], [4, 5]] : List (List ℕ)).map Video.tensor)
          ([[], [9], [8, 7]] : List (List ℕ)) =
        some (Video.tensor ([0, 1] ++ ((([[2, 3], [4, 5]] : List (List ℕ)).zip
          (([[], [9], [8, 7]] : List (List ℕ)).drop 1)).map
            (fun p => p.1.drop p.2.length)).join)) ∧
      combine_videos
          (Video.plain [0, 1] :: ([[2, 3], [4, 5]] : List (List ℕ)).map Video.plain)
          ([[], [9], [8, 7]] : List (List ℕ)) =
        some (Video.plain ([0, 1] ++ ([[2, 3], [4, 5]] : List (List ℕ)).join))) :=
  ⟨by decide,
    combine_videos_spec [0, 1] [[2, 3], [4, 5]] [[], [9], [8, 7]] (by decide)⟩

end Stitcher

/-! ## Keyframe scheduler: `prompt_preprocess` (generate.py lines 805-832);
the extra-key insertion loop is shared verbatim with `ip_adapter_preprocess`
(lines 776-791). -/

section Keyframe

variable {V : Type}

/-- Python `round` on an exact rational: round half to even. -/
def pythonRound (q : ℚ) : ℤ :=
  if q - ⌊q⌋ < 1 / 2 then ⌊q⌋
  else if 1 / 2 < q - ⌊q⌋ then ⌊q⌋ + 1
  else if ⌊q⌋ % 2 = 0 then ⌊q⌋ else ⌊q⌋ + 1

/-- One iteration of the extra-key loop (generate.py lines 825-830 and
784-790): `k05 = k0 + round((k1 - k0) * prompt_fixed_ratio)`, decremented
when it equals `k1`, and inserted with the map's current value at `k0`
unless it equals `k0`.  Python reuses the name `k05` after the clamp; the
clamped key is called `k05f` here. -/
def augmentStep (ratio : ℚ) (acc : List (ℤ × V)) (p : ℤ × ℤ) : List (ℤ × V) :=
  let k05 := p.1 + pythonRound (((p.2 - p.1 : ℤ) : ℚ) * ratio)
  let k05f := if k05 = p.2 then k05 - 1 else k05
  if k05f ≠ p.1 then
    match dictGet acc p.1 with
    | some v => dictSet acc k05f v
    | none => acc
  else acc

/-- The extra-key insertion loop over `zip(key_list, key_list[1:] +
[video_length])` (generate.py lines 824-830). -/
def augmentKeyMap (m : List (ℤ × V)) (ratio : ℚ) (duration : ℤ) :
    List (ℤ × V) :=
  ((m.map Prod.fst).zip ((m.map Prod.fst).drop 1 ++ [duration])).foldl
    (augmentStep ratio) m

/-- Sorted insertion, used to model Python `dict(sorted(m.items()))`. -/
def insertByKey (p : ℤ × V) : List (ℤ × V) → List (ℤ × V)
  | [] => [p]
  | q :: rest => if p.1 ≤ q.1 then p :: q :: rest else q :: insertByKey p rest

/-- Model of `dict(sorted(m.items()))`: rebuild the map in ascending key order. -/
def sortByKey (m : List (ℤ × V)) : List (ℤ × V) := m.foldr insertByKey []

/-- Embedding of `prompt_preprocess(prompt_config_map, head_prompt, tail_prompt,
prompt_fixed_ratio, video_length)` (generate.py lines 805-832): keep keys
below `video_length`, wrap each value with the head/tail prompts (Python
string truthiness: the empty string is falsy), sort by key, then run the
extra-key insertion loop. -/
def prompt_preprocess (prompt_config_map : List (ℤ × String))
    (head_prompt tail_prompt : String) (prompt_fixed_ratio : ℚ)
    (video_length : ℤ) : List (ℤ × String) :=
  let m := prompt_config_map.foldl (fun m p =>
    if p.1 < video_length then
      dictSet m p.1
        ((fun pr => if tail_prompt = "" then pr else pr ++ "," ++ tail_prompt)
          (if head_prompt = "" then p.2 else head_prompt ++ "," ++ p.2))
    else m) []
  augmentKeyMap (sortByKey m) prompt_fixed_ratio video_length

/-- The extra key and value derived from one consecutive key pair, read
off the original map: this is what the claim says each pair contributes. -/
def extraOf (m : List (ℤ × V)) (ratio : ℚ) (p : ℤ × ℤ) : Option (ℤ × V) :=
  let k05 := p.1 + pythonRound (((p.2 - p.1 : ℤ) : ℚ) * ratio)
  let k05f := if k05 = p.2 then k05 - 1 else k05
  if k05f = p.1 then none else (dictGet m p.1).map (fun v => (k05f, v))

/-- All extra keys derived from the consecutive key pairs of `m` (with the
last key paired against `duration`). -/
def specExtras (m : List (ℤ × V)) (ratio : ℚ) (duration : ℤ) :
    List (ℤ × V) :=
  ((m.map Prod.fst).zip ((m.map Prod.fst).drop 1 ++ [duration])).filterMap
    (extraOf m ratio)

theorem pythonRound_nonneg (q : ℚ) (h : 0 ≤ q) : 0 ≤ pythonRound q := by
  have h0 : (0 : ℤ) ≤ ⌊q⌋ := Int.le_floor.mpr (by exact_mod_cast h)
  unfold pythonRound
  split_ifs <;> omega

theorem pythonRound_le {q : ℚ} {n : ℤ} (h : q ≤ n) : pythonRound q ≤ n := by
  have hf : ⌊q⌋ ≤ n := by
    have h1 := Int.floor_le_floor h
    rwa [Int.floor_intCast] at h1
  have hplus : ¬(q - ⌊q⌋ < 1 / 2) → ⌊q⌋ + 1 ≤ n := by
    intro h1
    by_contra hc
    have hfn : ⌊q⌋ = n := by omega
    have hq : (⌊q⌋ : ℚ) + 1 / 2 ≤ q := by linarith [not_lt.mp h1]
    rw [hfn] at hq
    linarith
  unfold pythonRound
  split_ifs with h1 h2 h3
  · exact hf
  · exact hplus h1
  · exact hf
  · exact hplus h1

theorem dictKeys_append (m1 m2 : List (ℤ × V)) :
    dictKeys (m1 ++ m2) = dictKeys m1 ++ dictKeys m2 := by
  simp [dictKeys]

theorem augmentFold (m : List (ℤ × V)) (ratio : ℚ)
    (hr0 : 0 ≤ ratio) (hr1 : ratio ≤ 1) :
    ∀ (ps : List (ℤ × ℤ)) (ex : List (ℤ × V)),
      (∀ p ∈ ps, p.1 ∈ dictKeys m) →
      (∀ p ∈ ps, p.1 < p.2) →
      (∀ p ∈ ps, ∀ q ∈ dictKeys m, ¬(p.1 < q ∧ q < p.2)) →
      List.Pairwise (fun p q => p.2 ≤ q.1) ps →
      (∀ x ∈ dictKeys ex, ∀ p ∈ ps, x ≤ p.1) →
      ps.foldl (augmentStep ratio) (m ++ ex) =
        (m ++ ex) ++ ps.filterMap (extraOf m ratio) := by
  intro ps
  induction ps with
  | nil => intro ex _ _ _ _ _; simp
  | cons p ps ih =>
    intro ex h1 h2 h3 h4 h5
    rw [List.foldl_cons, List.filterMap_cons]
    have hp1 : p.1 ∈ dictKeys m := h1 p (by simp)
    have hp2 : p.1 < p.2 := h2 p (by simp)
    have hcast : (0 : ℚ) ≤ ((p.2 - p.1 : ℤ) : ℚ) := by
      exact_mod_cast (by omega : (0 : ℤ) ≤ p.2 - p.1)
    have hr_nonneg : 0 ≤ pythonRound (((p.2 - p.1 : ℤ) : ℚ) * ratio) :=
      pythonRound_nonneg _ (mul_nonneg hcast hr0)
    have hr_le : pythonRound (((p.2 - p.1 : ℤ) : ℚ) * ratio) ≤ p.2 - p.1 :=
      pythonRound_le (mul_le_of_le_one_right hcast hr1)
    simp only [augmentStep, extraOf]
    set r := pythonRound (((p.2 - p.1 : ℤ) : ℚ) * ratio) with hrdef
    by_cases hskip : (if p.1 + r = p.2 then p.1 + r - 1 else p.1 + r) = p.1
    · rw [if_neg (by simp [hskip]), if_pos hskip]
      have := ih ex (fun p hp => h1 p (List.mem_cons_of_mem _ hp))
        (fun p hp => h2 p (List.mem_cons_of_mem _ hp))
        (fun p hp => h3 p (List.mem_cons_of_mem _ hp))
        h4.of_cons
        (fun x hx p hp => h5 x hx p (List.mem_cons_of_mem _ hp))
      exact this
    · have hlow : p.1 < (if p.1 + r = p.2 then p.1 + r - 1 else p.1 + r) := by
        rcases lt_or_eq_of_le
          (by split <;> omega :
            p.1 ≤ (if p.1 + r = p.2 then p.1 + r - 1 else p.1 + r)) with h | h
        · exact h
        · exact absurd h.symm hskip
      have hhigh : (if p.1 + r = p.2 then p.1 + r - 1 else p.1 + r) < p.2 := by
        split <;> omega
      obtain ⟨v, hv⟩ := Option.isSome_iff_exists.mp
        ((dictGet_isSome_iff m p.1).mpr hp1)
      have hgetacc : dictGet (m ++ ex) p.1 = some v := by
        rw [dictGet_append_left ex hp1, hv]
      have hnotmem :
          (if p.1 + r = p.2 then p.1 + r - 1 else p.1 + r) ∉ dictKeys (m ++ ex) := by
        rw [dictKeys_append]
        intro hmem
        rcases List.mem_append.mp hmem with hmem | hmem
        · exact h3 p (by simp) _ hmem ⟨hlow, hhigh⟩
        · have := h5 _ hmem p (by simp)
          omega
      rw [if_pos hskip, hgetacc]
      simp only [dictSet_append_of_not_mem hnotmem v]
      rw [if_neg hskip, hv]
      simp only [Option.map_eq_map, Option.map_some']
      have hpair : ∀ q ∈ ps, p.2 ≤ q.1 := (List.pairwise_cons.mp h4).1
      have := ih (ex ++ [((if p.1 + r = p.2 then p.1 + r - 1 else p.1 + r), v)])
        (fun p hp => h1 p (List.mem_cons_of_mem _ hp))
        (fun p hp => h2 p (List.mem_cons_of_mem _ hp))
        (fun p hp => h3 p (List.mem_cons_of_mem _ hp))
        h4.of_cons
        (fun x hx q hq => by
          rw [dictKeys_append] at hx
          rcases List.mem_append.mp hx with hx | hx
          · exact h5 x hx q (List.mem_cons_of_mem _ hq)
          · have hxk : x = (if p.1 + r = p.2 then p.1 + r - 1 else p.1 + r) := by
              simpa [dictKeys] using hx
            have := hpair q hq
            omega)
      rw [← List.append_assoc] at this
      rw [this]
      simp [List.append_assoc]

end Keyframe

section KeyframeSpec

variable {V : Type}

theorem consecPairs_facts (duration : ℤ) :
    ∀ ks : List ℤ, List.Sorted (· < ·) ks → (∀ k ∈ ks, k < duration) →
      (∀ p ∈ ks.zip (ks.drop 1 ++ [duration]),
        p.1 ∈ ks ∧ p.1 < p.2 ∧ ∀ q ∈ ks, ¬(p.1 < q ∧ q < p.2)) ∧
      List.Pairwise (fun p q => p.2 ≤ q.1) (ks.zip (ks.drop 1 ++ [duration])) := by
  intro ks
  induction ks with
  | nil =>
    intro _ _
    constructor
    · intro p hp
      simp at hp
    · simp
  | cons k1 tl ih =>
    intro hsort hdur
    cases tl with
    | nil =>
      constructor
      · intro p hp
        simp only [List.drop_succ_cons, List.drop_zero, List.nil_append,
          List.zip_cons_cons, List.zip_nil_left, List.mem_singleton] at hp
        subst hp
        refine ⟨by simp, hdur k1 (by simp), ?_⟩
        intro q hq
        simp only [List.mem_singleton] at hq
        subst hq
        omega
      · simp only [List.drop_succ_cons, List.drop_zero, List.nil_append,
          List.zip_cons_cons, List.zip_nil_left]
        simp
    | cons k2 rest =>
      have hsort' : List.Sorted (· < ·) (k2 :: rest) := hsort.of_cons
      have hdur' : ∀ k ∈ k2 :: rest, k < duration :=
        fun k hk => hdur k (List.mem_cons_of_mem _ hk)
      obtain ⟨ihmem, ihpair⟩ := ih hsort' hdur'
      have hk1all : ∀ q ∈ k2 :: rest, k1 < q := (List.sorted_cons.mp hsort).1
      have hzip : (k1 :: k2 :: rest).zip ((k1 :: k2 :: rest).drop 1 ++ [duration]) =
          (k1, k2) :: (k2 :: rest).zip ((k2 :: rest).drop 1 ++ [duration]) := rfl
      rw [hzip]
      constructor
      · intro p hp
        rcases List.mem_cons.mp hp with hp | hp
        · subst hp
          refine ⟨by simp, hk1all k2 (by simp), ?_⟩
          intro q hq
          rcases List.mem_cons.mp hq with rfl | hq
          · omega
          · rcases List.mem_cons.mp hq with rfl | hq
            · omega
            · have := (List.sorted_cons.mp hsort').1 q hq
              omega
        · obtain ⟨hmem, hlt, hbet⟩ := ihmem p hp
          refine ⟨List.mem_cons_of_mem _ hmem, hlt, ?_⟩
          intro q hq
          rcases List.mem_cons.mp hq with rfl | hq
          · have := hk1all p.1 hmem
            omega
          · exact hbet q hq
      · refine List.pairwise_cons.mpr ⟨?_, ihpair⟩
        intro q hq
        have hq1 : q.1 ∈ k2 :: rest := (ihmem q hq).1
        rcases List.mem_cons.mp hq1 with h | h
        · omega
        · have := (List.sorted_cons.mp hsort').1 q.1 h
          omega

/-- C4, amended: for a key-sorted map with keys below `duration` and
`fixed_ratio` in `[0, 1]`, the extra-key loop appends, for each
consecutive key pair `(k_i, k_{i+1})` — the last key paired with
`duration` — the key `k_i + round((k_{i+1} − k_i) × fixed_ratio)`,
decremented by one when it equals `k_{i+1}` and omitted when it equals
`k_i`, bound to a copy of the value at `k_i`; the original entries are
untouched.  (In the claim's example the final pair `(8, 16)` also
contributes key 12 with the value of key 8, so the key set is
`{0, 4, 8, 12}`, not `{0, 4, 8}`.) -/
theorem augmentKeyMap_spec (m : List (ℤ × V)) (ratio : ℚ) (duration : ℤ)
    (hsorted : List.Sorted (· < ·) (dictKeys m))
    (hdur : ∀ k ∈ dictKeys m, k < duration)
    (hr0 : 0 ≤ ratio) (hr1 : ratio ≤ 1) :
    augmentKeyMap m ratio duration = m ++ specExtras m ratio duration := by
  obtain ⟨hmem, hpair⟩ := consecPairs_facts duration (dictKeys m) hsorted hdur
  have hfold := augmentFold m ratio hr0 hr1
    ((dictKeys m).zip ((dictKeys m).drop 1 ++ [duration])) []
    (fun p hp => (hmem p hp).1)
    (fun p hp => (hmem p hp).2.1)
    (fun p hp => (hmem p hp).2.2)
    hpair
    (by intro x hx; simp [dictKeys] at hx)
  rw [List.append_nil] at hfold
  unfold augmentKeyMap specExtras
  unfold dictKeys at hfold
  exact hfold

/-- Witness for `augmentKeyMap_spec` at the claim's example input. -/
theorem augmentKeyMap_spec_witness :
    (List.Sorted (· < ·) (dictKeys [((0 : ℤ), "a"), (8, "b")]) ∧
      (∀ k ∈ dictKeys [((0 : ℤ), "a"), (8, "b")], k < 16) ∧
      (0 : ℚ) ≤ 1 / 2 ∧ (1 : ℚ) / 2 ≤ 1) ∧
    augmentKeyMap [((0 : ℤ), "a"), (8, "b")] (1 / 2) 16 =
      [((0 : ℤ), "a"), (8, "b")] ++ specExtras [((0 : ℤ), "a"), (8, "b")] (1 / 2) 16 :=
  ⟨⟨by decide, by decide, by norm_num, by norm_num⟩,
    augmentKeyMap_spec [((0 : ℤ), "a"), (8, "b")] (1 / 2) 16
      (by decide) (by decide) (by norm_num) (by norm_num)⟩

/-- C4, counterexample to the claim's concrete example: for keys
`{0: "a", 8: "b"}`, duration 16 and `fixed_ratio = 0.5`, the loop also
processes the pair `(8, 16)` and inserts key `12 = 8 + round(8 × 0.5)`
holding the value of key 8 — the resulting key set is `{0, 4, 8, 12}`,
not `{0, 4, 8}` as claimed. -/
theorem prompt_preprocess_example_counterexample :
    prompt_preprocess [(0, "a"), (8, "b")] "" "" (1 / 2) 16 =
      [((0 : ℤ), "a"), (8, "b"), (4, "a"), (12, "b")] ∧
    (12 : ℤ) ∈ dictKeys (prompt_preprocess [(0, "a"), (8, "b")] "" "" (1 / 2) 16) ∧
    (12 : ℤ) ∉ ([0, 4, 8] : List ℤ) := by
  have hpr : pythonRound (4 : ℚ) = 4 := by
    unfold pythonRound
    norm_num
  have heval : prompt_preprocess [(0, "a"), (8, "b")] "" "" (1 / 2) 16 =
      [((0 : ℤ), "a"), (8, "b"), (4, "a"), (12, "b")] := by
    norm_num [prompt_preprocess, sortByKey, insertByKey, augmentKeyMap,
      augmentStep, dictGet, dictSet, dictKeys, hpr]
  exact ⟨heval, by rw [heval]; decide, by decide⟩

end KeyframeSpec

/-! ## Per-frame interpolation query: `get_current_prompt_embeds`
(generate.py lines 1510-1534) -/

section Interp

variable {α : Type}

/-- The key scan of `get_current_prompt_embeds` (generate.py lines
1514-1518): walk the keys in ascending order, breaking at the first key
greater than `center_frame` (which becomes `key_next`); every key visited
before that becomes `key_prev`.  The accumulators start at
`key_last`/`key_first`. -/
def scanKeys (center : ℕ) : List ℕ → ℕ → ℕ → ℕ × ℕ
  | [], kp, kn => (kp, kn)
  | p :: rest, kp, kn => if center < p then (kp, p) else scanKeys center rest p kn

/-- Embedding of `get_current_prompt_embeds(center_frame, video_length)` (generate.py
lines 1510-1534), over the sorted key list of `prompt_map`: `emb k`
stands for the cached embedding `prompt_embeds_map[k]` and
`interp a b rate` for the configured tensor interpolation method. -/
def get_current_prompt_embeds (keys : List ℕ) (emb : ℕ → α)
    (interp : α → α → ℚ → α) (center_frame video_length : ℕ) : α :=
  let key_first := keys.headD 0
  let key_last := keys.getLastD 0
  let pk := scanKeys center_frame keys key_last key_first
  let dist_prev0 : ℤ := center_frame - pk.1
  let dist_prev : ℤ := if dist_prev0 < 0 then dist_prev0 + video_length else dist_prev0
  let dist_next0 : ℤ := pk.2 - center_frame
  let dist_next : ℤ := if dist_next0 < 0 then dist_next0 + video_length else dist_next0
  if pk.1 = pk.2 ∨ dist_prev + dist_next = 0 then emb pk.1
  else interp (emb pk.1) (emb pk.2)
    ((dist_prev : ℚ) / ((dist_prev : ℚ) + (dist_next : ℚ)))

/-- The claim's `key_prev`: the greatest key ≤ f, wrapping to the last
key when none exists. -/
def specKeyPrev (keys : List ℕ) (f : ℕ) : ℕ :=
  ((keys.filter (fun k => k ≤ f)).max?).getD (keys.getLastD 0)

/-- The claim's `key_next`: the smallest key > f, wrapping to the first
key when none exists. -/
def specKeyNext (keys : List ℕ) (f : ℕ) : ℕ :=
  ((keys.filter (fun k => f < k)).min?).getD (keys.headD 0)

/-- Circular distance from `a` to `b` over `duration`. -/
def circDist (a b duration : ℕ) : ℤ := ((b : ℤ) - a) % duration

theorem scanKeys_spec (center : ℕ) :
    ∀ (keys : List ℕ) (a b : ℕ), List.Sorted (· < ·) keys →
      scanKeys center keys a b =
        (((keys.filter (fun k => k ≤ center)).max?).getD a,
         ((keys.filter (fun k => center < k)).min?).getD b) := by
  intro keys
  induction keys with
  | nil => intro a b _; simp [scanKeys]
  | cons p rest ih =>
    intro a b hsort
    have hall : ∀ q ∈ rest, p < q := (List.sorted_cons.mp hsort).1
    rw [scanKeys]
    by_cases h : center < p
    · rw [if_pos h]
      have hfle : (p :: rest).filter (fun k => decide (k ≤ center)) = [] := by
        rw [List.filter_eq_nil_iff]
        intro q hq
        rcases List.mem_cons.mp hq with rfl | hq
        · simpa using h
        · have := hall q hq
          simp only [decide_eq_true_eq, not_le]
          omega
      have hfgt : (p :: rest).filter (fun k => decide (center < k)) = p :: rest := by
        rw [List.filter_eq_self]
        intro q hq
        rcases List.mem_cons.mp hq with rfl | hq
        · simpa using h
        · have := hall q hq
          simp only [decide_eq_true_eq]
          omega
      rw [hfle, hfgt, List.min?_cons]
      have hmin : rest.min?.elim p (min p) = p := by
        cases hm : rest.min? with
        | none => rfl
        | some m =>
          have hmem : m ∈ rest := List.min?_mem (fun a b => min_choice a b) hm
          have := hall m hmem
          simp only [Option.elim]
          omega
      rw [hmin]
      rfl
    · rw [if_neg h]
      rw [ih p b hsort.of_cons]
      have hple : (p :: rest).filter (fun k => decide (k ≤ center)) =
          p :: rest.filter (fun k => decide (k ≤ center)) := by
        rw [List.filter_cons_of_pos]
        simpa using Nat.le_of_not_lt h
      have hpgt : (p :: rest).filter (fun k => decide (center < k)) =
          rest.filter (fun k => decide (center < k)) := by
        rw [List.filter_cons_of_neg]
        simpa using h
      rw [hple, hpgt, List.max?_cons]
      have hmax : (rest.filter (fun k => decide (k ≤ center))).max?.elim p (max p) =
          ((rest.filter (fun k => decide (k ≤ center))).max?).getD p := by
        cases hm : (rest.filter (fun k => decide (k ≤ center))).max? with
        | none => rfl
        | some m =>
          have hmem : m ∈ rest :=
            (List.mem_filter.mp (List.max?_mem (fun a b => max_choice a b) hm)).1
          have := hall m hmem
          simp only [Option.elim, Option.getD_some]
          omega
      rw [Option.getD_some, hmax]

theorem wrapAdd_eq_emod (a : ℤ) (V : ℕ) (h1 : -(V : ℤ) < a) (h2 : a < V) :
    (if a < 0 then a + V else a) = a % V := by
  rcases lt_or_ge a 0 with h | h
  · rw [if_pos h]
    have hmod : a % V = (a + V * 1) % V := by
      rw [Int.add_mul_emod_self_left]
    rw [hmod, mul_one, Int.emod_eq_of_lt (by omega) (by omega)]
  · rw [if_neg (by omega), Int.emod_eq_of_lt h h2]

theorem emod_eq_zero_small {a : ℤ} {V : ℕ} (h1 : -(V : ℤ) < a) (h2 : a < V)
    (h : a % V = 0) : a = 0 := by
  rw [← wrapAdd_eq_emod a V h1 h2] at h
  rcases lt_or_ge a 0 with hneg | hpos
  · rw [if_pos hneg] at h
    omega
  · rw [if_neg (by omega)] at h
    exact h

theorem specKeyPrev_mem (keys : List ℕ) (f : ℕ) (hne : keys ≠ []) :
    specKeyPrev keys f ∈ keys := by
  unfold specKeyPrev
  cases hm : (keys.filter (fun k => k ≤ f)).max? with
  | none =>
    rw [Option.getD_none, List.getLastD_eq_getLast?, List.getLast?_eq_getLast keys hne]
    exact List.getLast_mem hne
  | some m =>
    rw [Option.getD_some]
    exact (List.mem_filter.mp (List.max?_mem (fun a b => max_choice a b) hm)).1

theorem specKeyNext_mem (keys : List ℕ) (f : ℕ) (hne : keys ≠ []) :
    specKeyNext keys f ∈ keys := by
  unfold specKeyNext
  cases hm : (keys.filter (fun k => f < k)).min? with
  | none =>
    rw [Option.getD_none, List.headD_eq_head?, List.head?_eq_head hne]
    exact List.head_mem hne
  | some m =>
    rw [Option.getD_some]
    exact (List.mem_filter.mp (List.min?_mem (fun a b => min_choice a b) hm)).1

end Interp

section InterpMain

variable {α : Type}

/-- C5 (per-frame interpolation query): over a sorted non-empty key list
with keys and query frame below `duration`, the query resolves `key_prev`
as the greatest key ≤ f (wrapping to the last key when none exists) and
`key_next` as the smallest key > f (wrapping to the first key), and
returns the interpolation of the two keys' values at rate
`dist(key_prev, f) / (dist(key_prev, f) + dist(f, key_next))` with
circular distance over `duration`; when `key_prev = key_next` the exact
value at that key is returned with no interpolation. -/
theorem get_current_prompt_embeds_resolves (keys : List ℕ) (emb : ℕ → α)
    (interp : α → α → ℚ → α) (f duration : ℕ)
    (hsort : List.Sorted (· < ·) keys) (hne : keys ≠ [])
    (hdur : ∀ k ∈ keys, k < duration) (hf : f < duration) :
    get_current_prompt_embeds keys emb interp f duration =
      if specKeyPrev keys f = specKeyNext keys f then emb (specKeyPrev keys f)
      else
        interp (emb (specKeyPrev keys f)) (emb (specKeyNext keys f))
          ((circDist (specKeyPrev keys f) f duration : ℚ) /
            ((circDist (specKeyPrev keys f) f duration : ℚ) +
              (circDist f (specKeyNext keys f) duration : ℚ))) := by
  have hscan := scanKeys_spec f keys (keys.getLastD 0) (keys.headD 0) hsort
  have hkp : (((keys.filter (fun k => k ≤ f)).max?).getD (keys.getLastD 0)) =
      specKeyPrev keys f := rfl
  have hkn : (((keys.filter (fun k => f < k)).min?).getD (keys.headD 0)) =
      specKeyNext keys f := rfl
  rw [hkp, hkn] at hscan
  have hkpd : specKeyPrev keys f < duration :=
    hdur _ (specKeyPrev_mem keys f hne)
  have hknd : specKeyNext keys f < duration :=
    hdur _ (specKeyNext_mem keys f hne)
  have hdpos : 0 < duration := by omega
  have hwp := wrapAdd_eq_emod ((f : ℤ) - specKeyPrev keys f) duration
    (by omega) (by omega)
  have hwn := wrapAdd_eq_emod ((specKeyNext keys f : ℤ) - f) duration
    (by omega) (by omega)
  simp only [get_current_prompt_embeds]
  rw [hscan]
  simp only
  rw [hwp, hwn]
  have hcp : ((f : ℤ) - specKeyPrev keys f) % duration =
      circDist (specKeyPrev keys f) f duration := rfl
  have hcn : ((specKeyNext keys f : ℤ) - f) % duration =
      circDist f (specKeyNext keys f) duration := rfl
  rw [hcp, hcn]
  by_cases hkk : specKeyPrev keys f = specKeyNext keys f
  · rw [if_pos (Or.inl hkk), if_pos hkk]
  · have hsum : circDist (specKeyPrev keys f) f duration +
        circDist f (specKeyNext keys f) duration ≠ 0 := by
      intro hsum0
      have hp0 : 0 ≤ circDist (specKeyPrev keys f) f duration :=
        Int.emod_nonneg _ (by omega)
      have hn0 : 0 ≤ circDist f (specKeyNext keys f) duration :=
        Int.emod_nonneg _ (by omega)
      have hz1 : ((f : ℤ) - specKeyPrev keys f) % duration = 0 := by
        unfold circDist at hsum0 hp0 hn0
        omega
      have hz2 : ((specKeyNext keys f : ℤ) - f) % duration = 0 := by
        unfold circDist at hsum0 hp0 hn0
        omega
      have he1 := emod_eq_zero_small (a := (f : ℤ) - specKeyPrev keys f)
        (V := duration) (by omega) (by omega) hz1
      have he2 := emod_eq_zero_small (a := (specKeyNext keys f : ℤ) - f)
        (V := duration) (by omega) (by omega) hz2
      exact hkk (by omega)
    rw [if_neg (by tauto), if_neg hkk]

end InterpMain

/-- Witness for `get_current_prompt_embeds_resolves` at a concrete input. -/
theorem get_current_prompt_embeds_resolves_witness :
    (List.Sorted (· < ·) ([0, 8] : List ℕ) ∧ ([0, 8] : List ℕ) ≠ [] ∧
      (∀ k ∈ ([0, 8] : List ℕ), k < 16) ∧ 3 < 16) ∧
    get_current_prompt_embeds [0, 8] (fun k => (k : ℚ))
        (fun a b r => a + (b - a) * r) 3 16 =
      if specKeyPrev [0, 8] 3 = specKeyNext [0, 8] 3 then
        ((specKeyPrev [0, 8] 3 : ℕ) : ℚ)
      else
        (fun a b r => a + (b - a) * r) ((specKeyPrev [0, 8] 3 : ℕ) : ℚ)
          ((specKeyNext [0, 8] 3 : ℕ) : ℚ)
          ((circDist (specKeyPrev [0, 8] 3) 3 16 : ℚ) /
            ((circDist (specKeyPrev [0, 8] 3) 3 16 : ℚ) +
              (circDist 3 (specKeyNext [0, 8] 3) 16 : ℚ))) :=
  ⟨⟨by decide, by decide, by decide, by decide⟩,
    get_current_prompt_embeds_resolves [0, 8] (fun k => (k : ℚ))
      (fun a b r => a + (b - a) * r) 3 16 (by decide) (by decide) (by decide)
      (by decide)⟩

/-! ## Mask forward-fill: `mask_preprocess` (generate.py lines 1018-1028) -/

section MaskFill

variable {V : Type}

/-- One iteration of the forward-fill loop (generate.py lines 1024-1028):
at frame `i`, either update `prev_img` from the map, or assign
`mask_map[i] = prev_img`.  The state is `(mask_map, prev_img)`. -/
def fillStep (st : List (ℕ × V) × V) (i : ℕ) : List (ℕ × V) × V :=
  match dictGet st.1 i with
  | some v => (st.1, v)
  | none => (dictSet st.1 i st.2, st.2)

/-- The forward-fill pass of `mask_preprocess` (generate.py lines
1018-1028): `prev_img` starts as the mask at frame 0 when present, and as
a freshly created black image (`Image.new(mode, size, color=0)`) —
modelled by `black` — otherwise; every frame of `range(duration)` then
either updates `prev_img` or is assigned the current `prev_img`. -/
def maskForwardFill (mask_map : List (ℕ × V)) (black : V) (duration : ℕ) :
    List (ℕ × V) :=
  ((List.range duration).foldl fillStep
    (mask_map, (dictGet mask_map 0).getD black)).1

/-- The dense value at frame `i`: the value of the nearest explicit key
at or before `i`, and `black` when no such key exists (this default is
where the code and the claim part ways — the claim says the first key's
value is used there). -/
def specFillValue (mask_map : List (ℕ × V)) (black : V) (i : ℕ) : V :=
  match ((dictKeys mask_map).filter (fun k => k ≤ i)).max? with
  | some k => (dictGet mask_map k).getD black
  | none => black

/-- The `prev_img` value entering iteration `j`: the value of the
greatest key strictly below `j`, defaulting to the initial `prev_img`. -/
def fillPrev (mask_map : List (ℕ × V)) (black : V) (j : ℕ) : V :=
  match ((dictKeys mask_map).filter (fun k => k + 1 ≤ j)).max? with
  | some k => (dictGet mask_map k).getD black
  | none => (dictGet mask_map 0).getD black

theorem dictGet_append_singleton (l : List (ℕ × V)) (i : ℕ) (v : V) (k : ℕ) :
    dictGet (l ++ [(i, v)]) k =
      match dictGet l k with
      | some w => some w
      | none => if i = k then some v else none := by
  induction l with
  | nil => simp [dictGet]
  | cons p rest ih =>
    simp only [List.cons_append, dictGet]
    split
    · rfl
    · exact ih

theorem specFillValue_eq_fillPrev (m : List (ℕ × V)) (black : V) (k : ℕ)
    (hk : k ∉ dictKeys m) : specFillValue m black k = fillPrev m black k := by
  unfold specFillValue fillPrev
  have hfe : (dictKeys m).filter (fun q => q ≤ k) =
      (dictKeys m).filter (fun q => q + 1 ≤ k) := by
    apply List.filter_congr
    intro x hx
    have hxk : x ≠ k := fun h => hk (h ▸ hx)
    simp only [decide_eq_decide]
    omega
  rw [hfe]
  cases hm : ((dictKeys m).filter (fun q => q + 1 ≤ k)).max? with
  | some q => rfl
  | none =>
    have hnil : (dictKeys m).filter (fun q => q + 1 ≤ k) = [] := by
      cases hc : (dictKeys m).filter (fun q => q + 1 ≤ k) with
      | nil => rfl
      | cons a rest =>
        rw [hc, List.max?_cons] at hm
        exact absurd hm (by simp)
    have h0 : (0 : ℕ) ∉ dictKeys m := by
      intro h0
      have : (0 : ℕ) ∈ (dictKeys m).filter (fun q => q ≤ k) := by
        rw [List.mem_filter]
        exact ⟨h0, by simp⟩
      rw [hfe, hnil] at this
      simp at this
    rw [(dictGet_eq_none_iff m 0).mpr h0]
    rfl

theorem maskFill_inv (m : List (ℕ × V)) (black : V) :
    ∀ j : ℕ,
      ((List.range j).foldl fillStep (m, (dictGet m 0).getD black)).2 =
          fillPrev m black j ∧
      ∀ k, dictGet
          ((List.range j).foldl fillStep (m, (dictGet m 0).getD black)).1 k =
        if k ∈ dictKeys m then dictGet m k
        else if k < j then some (specFillValue m black k) else none := by
  intro j
  induction j with
  | zero =>
    constructor
    · have hfe : (dictKeys m).filter (fun k => k + 1 ≤ 0) = [] := by
        rw [List.filter_eq_nil_iff]
        intro a _
        simp
      unfold fillPrev
      rw [hfe]
      rfl
    · intro k
      simp only [List.range_zero, List.foldl_nil]
      by_cases hk : k ∈ dictKeys m
      · rw [if_pos hk]
      · rw [if_neg hk, if_neg (by omega)]
        exact (dictGet_eq_none_iff m k).mpr hk
  | succ n ih =>
    obtain ⟨ihprev, ihget⟩ := ih
    rw [List.range_succ, List.foldl_append, List.foldl_cons, List.foldl_nil]
    by_cases hn : n ∈ dictKeys m
    · have hsome : dictGet
          ((List.range n).foldl fillStep (m, (dictGet m 0).getD black)).1 n =
          dictGet m n := by
        rw [ihget n, if_pos hn]
      obtain ⟨v, hv⟩ := Option.isSome_iff_exists.mp ((dictGet_isSome_iff m n).mpr hn)
      rw [hv] at hsome
      constructor
      · simp only [fillStep, hsome]
        have hfe : (dictKeys m).filter (fun k => k + 1 ≤ n + 1) =
            (dictKeys m).filter (fun k => k ≤ n) := by
          apply List.filter_congr
          intro x _
          simp only [decide_eq_decide]
          omega
        have hmax : ((dictKeys m).filter (fun k => k ≤ n)).max? = some n := by
          rw [List.max?_eq_some_iff (fun a => le_refl a) (fun a b => max_choice a b)
            (fun a b c => max_le_iff)]
          constructor
          · rw [List.mem_filter]
            exact ⟨hn, by simp⟩
          · intro b hb
            have := (List.mem_filter.mp hb).2
            simpa using this
        unfold fillPrev
        rw [hfe, hmax]
        simp [hv]
      · intro k
        simp only [fillStep, hsome]
        rw [ihget k]
        by_cases hk : k ∈ dictKeys m
        · rw [if_pos hk, if_pos hk]
        · rw [if_neg hk, if_neg hk]
          have hkn : k ≠ n := fun h => hk (h ▸ hn)
          by_cases hlt : k < n
          · rw [if_pos hlt, if_pos (by omega)]
          · rw [if_neg hlt, if_neg (by omega)]
    · have hnone : dictGet
          ((List.range n).foldl fillStep (m, (dictGet m 0).getD black)).1 n =
          none := by
        rw [ihget n, if_neg hn, if_neg (by omega)]
      have hnotmem :
          n ∉ dictKeys ((List.range n).foldl fillStep (m, (dictGet m 0).getD black)).1 :=
        (dictGet_eq_none_iff _ _).mp hnone
      constructor
      · simp only [fillStep, hnone]
        rw [ihprev]
        unfold fillPrev
        have hfe : (dictKeys m).filter (fun k => k + 1 ≤ n + 1) =
            (dictKeys m).filter (fun k => k + 1 ≤ n) := by
          apply List.filter_congr
          intro x hx
          have hxn : x ≠ n := fun h => hn (h ▸ hx)
          simp only [decide_eq_decide]
          omega
        rw [hfe]
      · intro k
        simp only [fillStep, hnone]
        rw [dictSet_append_of_not_mem hnotmem, dictGet_append_singleton]
        rw [ihget k]
        by_cases hk : k ∈ dictKeys m
        · obtain ⟨w, hw⟩ :=
            Option.isSome_iff_exists.mp ((dictGet_isSome_iff m k).mpr hk)
          simp [hk, hw]
        · rw [if_neg hk]
          by_cases hlt : k < n
          · rw [if_pos hlt]
            simp [hk, show k < n + 1 from by omega]
          · by_cases hkn : n = k
            · subst hkn
              rw [if_neg hlt]
              simp [hk, ihprev, specFillValue_eq_fillPrev m black n hk,
                show n < n + 1 from by omega]
            · rw [if_neg hlt]
              simp [hk, hkn, show ¬(k < n + 1) from by omega]

/-- C6 (amended): after the forward-fill pass, every frame in
`[0, duration)` maps to the value of the nearest explicit key at or
before it; a frame strictly before the first explicit key maps to the
freshly created black image — NOT to the first key's value as the claim
states. -/
theorem maskForwardFill_spec (m : List (ℕ × V)) (black : V) (duration : ℕ)
    (hk : ∀ k ∈ dictKeys m, k < duration) :
    ∀ i, i < duration →
      dictGet (maskForwardFill m black duration) i =
        some (specFillValue m black i) := by
  intro i hi
  unfold maskForwardFill
  obtain ⟨_, hget⟩ := maskFill_inv m black duration
  rw [hget i]
  by_cases hmem : i ∈ dictKeys m
  · rw [if_pos hmem]
    obtain ⟨v, hv⟩ := Option.isSome_iff_exists.mp ((dictGet_isSome_iff m i).mpr hmem)
    have hmax : ((dictKeys m).filter (fun k => k ≤ i)).max? = some i := by
      rw [List.max?_eq_some_iff (fun a => le_refl a) (fun a b => max_choice a b)
        (fun a b c => max_le_iff)]
      constructor
      · rw [List.mem_filter]
        exact ⟨hmem, by simp⟩
      · intro b hb
        simpa using (List.mem_filter.mp hb).2
    unfold specFillValue
    rw [hmax]
    simp [hv]
  · rw [if_neg hmem, if_pos hi]

/-- Witness for `maskForwardFill_spec` at a concrete input. -/
theorem maskForwardFill_spec_witness :
    ((∀ k ∈ dictKeys [((0 : ℕ), (7 : ℕ)), (2, 5)], k < 4) ∧ 1 < 4) ∧
    dictGet (maskForwardFill [((0 : ℕ), (7 : ℕ)), (2, 5)] 0 4) 1 =
      some (specFillValue [((0 : ℕ), (7 : ℕ)), (2, 5)] 0 1) :=
  ⟨⟨by decide, by decide⟩,
    maskForwardFill_spec [((0 : ℕ), (7 : ℕ)), (2, 5)] 0 4 (by decide) 1 (by decide)⟩

/-- C6, counterexample to the claim as stated: for the mask map
`{2: 5}` (first explicit key 2) with duration 4, frame 0 — strictly
before the first key — is filled with the black image (here `0`), not
with the first key's value `5`. -/
theorem maskForwardFill_counterexample :
    dictGet (maskForwardFill [((2 : ℕ), (5 : ℕ))] 0 4) 0 = some 0 ∧
      dictGet [((2 : ℕ), (5 : ℕ))] 2 = some 5 ∧ (0 : ℕ) ≠ 5 := by
  refine ⟨by decide, by decide, by decide⟩

/-- C9 (idempotence of forward-fill): on an already-dense map (every
frame index in `[0, duration)` present as a key) the forward-fill pass
returns the map unchanged — no key added, removed or remapped. -/
theorem maskForwardFill_idempotent (m : List (ℕ × V)) (black : V) (duration : ℕ)
    (hdense : ∀ i, i < duration → i ∈ dictKeys m) :
    maskForwardFill m black duration = m := by
  unfold maskForwardFill
  suffices h : ∀ l : List ℕ, (∀ i ∈ l, i ∈ dictKeys m) →
      ∀ pv, (l.foldl fillStep (m, pv)).1 = m by
    exact h (List.range duration) (fun i hi => hdense i (List.mem_range.mp hi)) _
  intro l
  induction l with
  | nil => intro _ pv; rfl
  | cons i rest ih =>
    intro hmem pv
    rw [List.foldl_cons]
    obtain ⟨v, hv⟩ := Option.isSome_iff_exists.mp
      ((dictGet_isSome_iff m i).mpr (hmem i (by simp)))
    simp only [fillStep, hv]
    exact ih (fun q hq => hmem q (by simp [hq])) v

/-- Witness for `maskForwardFill_idempotent` at a concrete input. -/
theorem maskForwardFill_idempotent_witness :
    (∀ i, i < 2 → i ∈ dictKeys [((0 : ℕ), (9 : ℕ)), (1, 8)]) ∧
    maskForwardFill [((0 : ℕ), (9 : ℕ)), (1, 8)] 0 2 = [(0, 9), (1, 8)] :=
  ⟨by decide, maskForwardFill_idempotent [((0 : ℕ), (9 : ℕ)), (1, 8)] 0 2 (by decide)⟩

end MaskFill

/-! ## Region conditioning composer: `region_preprocess`
(generate.py lines 835-954).  The file-reading preprocessors
(`ip_adapter_preprocess`, `mask_preprocess`, `prompt_preprocess`) perform
I/O, so their per-source results are passed in as parameters; the
composer's own control flow is translated statement by statement.  `M`,
`I`, `P`, `C` abstract mask maps, adapter-image maps, prompt maps and the
shared adapter configuration (scale and feature-mode flags). -/

section Region

variable {M I P C : Type}

/-- A non-background entry of `model_config.region_map`: its `enable` and
`is_init_img` flags, the result of `mask_preprocess` for it, the result
of `ip_adapter_preprocess` for its own condition, and its processed
prompt map. -/
structure RegionSpec (M I P : Type) where
  enable : Bool
  is_init_img : Bool
  mask : Option M
  ip : Option I
  prompt : P
deriving DecidableEq

/-- One entry of `region_condi_list`: a conditioning bundle. -/
structure Condi (I P : Type) where
  prompt : P
  ip : Option I
deriving DecidableEq

/-- One entry of `region_list`: mask images plus the bundle index, where
`-1` is the "use the externally supplied initial image" sentinel. -/
structure RegionEntry (M : Type) where
  mask_images : Option M
  src : ℤ
deriving DecidableEq

/-- The loop state of `region_preprocess`:
`(region_condi_list, region_list, prev_ip_map, condi_index)`. -/
structure RegionState (M I P : Type) where
  condi : List (Condi I P)
  regs : List (RegionEntry M)
  prev : Option I
  idx : ℤ
deriving DecidableEq

/-- One iteration of the region loop (generate.py lines 882-927). -/
def regionStep (is_init_img_exist : Bool) (st : RegionState M I P)
    (r : RegionSpec M I P) : RegionState M I P :=
  if r.enable = false then st
  else
    match r.mask with
    | none => st
    | some mk =>
      if r.is_init_img = false then
        ⟨st.condi ++ [⟨r.prompt, r.ip⟩], st.regs ++ [⟨some mk, st.idx⟩],
          if r.ip.isSome then r.ip else st.prev, st.idx + 1⟩
      else
        if is_init_img_exist = false then st
        else ⟨st.condi, st.regs ++ [⟨some mk, -1⟩], st.prev, st.idx⟩

/-- The fill applied to bundles lacking their own adapter map
(generate.py lines 943-946). -/
def fillWith (prev : Option I) (c : Condi I P) : Condi I P :=
  match c.ip with
  | none => ⟨c.prompt, prev⟩
  | some _ => c

/-- Embedding of `region_preprocess(model_config, ..., is_init_img_exist)`
(generate.py lines 835-954).  `bg_init` is
`region_map["background"]["is_init_img"]` (false when the region map or
its background entry is absent); `bg_prompt`/`bg_ip` are the background's
preprocessed prompt and adapter maps; `topCfg` stands for the four
fields read from `model_config.ip_adapter_map` (scale, is_plus,
is_plus_face, is_light).  `none` models the raised
`ValueError("erro! There is not a single valid region")`. -/
def region_preprocess (is_init_img_exist bg_init : Bool) (bg_prompt : P)
    (bg_ip : Option I) (regions : List (RegionSpec M I P)) (topCfg : C) :
    Option (List (Condi I P) × List (RegionEntry M) × Option C) :=
  let is_bg_init_img := is_init_img_exist && bg_init
  let st0 : RegionState M I P :=
    if is_bg_init_img then ⟨[], [⟨none, -1⟩], none, 0⟩
    else ⟨[⟨bg_prompt, bg_ip⟩], [⟨none, 0⟩], bg_ip, 1⟩
  let st := regions.foldl (regionStep is_init_img_exist) st0
  let cfg : Option C := if st.prev.isSome then some topCfg else none
  let condi := if st.prev.isSome then st.condi.map (fillWith st.prev)
    else st.condi
  if condi.isEmpty then none else some (condi, st.regs, cfg)

/-- Whether a region contributes a conditioning bundle: enabled, with a
usable mask, and not directed to reuse the initial image. -/
def contributes (r : RegionSpec M I P) : Bool :=
  r.enable && r.mask.isSome && !r.is_init_img

/-- The adapter map left in `prev_ip_map` after the loop: the
last-encountered adapter map among the contributing regions, defaulting
to `init` (the background's). -/
def lastIp (init : Option I) (regions : List (RegionSpec M I P)) : Option I :=
  match ((regions.filter contributes).filterMap (fun r => r.ip)).getLast? with
  | some v => some v
  | none => init

theorem regionFold_spec (iie : Bool) :
    ∀ (regions : List (RegionSpec M I P)) (st0 : RegionState M I P),
      (regions.foldl (regionStep iie) st0).condi =
        st0.condi ++ (regions.filter contributes).map
          (fun r => Condi.mk r.prompt r.ip) ∧
      (regions.foldl (regionStep iie) st0).prev = lastIp st0.prev regions := by
  intro regions
  induction regions with
  | nil =>
    intro st0
    refine ⟨by simp, ?_⟩
    simp [lastIp]
  | cons r rest ih =>
    intro st0
    rw [List.foldl_cons]
    by_cases hc : contributes r = true
    · have hen : r.enable = true := by
        unfold contributes at hc
        simp at hc
        exact hc.1.1
      obtain ⟨mk, hmk⟩ : ∃ mk, r.mask = some mk := by
        unfold contributes at hc
        simp at hc
        exact Option.isSome_iff_exists.mp hc.1.2
      have hini : r.is_init_img = false := by
        unfold contributes at hc
        simp at hc
        exact hc.2
      have hstep : regionStep iie st0 r =
          ⟨st0.condi ++ [⟨r.prompt, r.ip⟩], st0.regs ++ [⟨some mk, st0.idx⟩],
            if r.ip.isSome then r.ip else st0.prev, st0.idx + 1⟩ := by
        unfold regionStep
        rw [hen, hmk, hini]
        simp
      rw [hstep]
      obtain ⟨ihc, ihp⟩ := ih ⟨st0.condi ++ [⟨r.prompt, r.ip⟩],
        st0.regs ++ [⟨some mk, st0.idx⟩],
        if r.ip.isSome then r.ip else st0.prev, st0.idx + 1⟩
      refine ⟨?_, ?_⟩
      · rw [ihc]
        simp only [List.filter_cons, hc, if_pos]
        simp [List.append_assoc]
      · rw [ihp]
        simp only
        unfold lastIp
        rw [List.filter_cons, if_pos hc, List.filterMap_cons]
        cases hip : r.ip with
        | none => simp [hip]
        | some v =>
          simp only [hip, Option.isSome_some, if_pos, List.getLast?_cons]
          cases hrest : ((rest.filter contributes).filterMap (fun r => r.ip)).getLast? with
          | none => simp [hrest]
          | some w => simp [hrest]
    · have hkeep : (regionStep iie st0 r).condi = st0.condi ∧
          (regionStep iie st0 r).prev = st0.prev := by
        by_cases hen : r.enable = false
        · simp [regionStep, hen]
        · cases hmk : r.mask with
          | none => simp [regionStep, hen, hmk]
          | some mk =>
            have hini : r.is_init_img = true := by
              unfold contributes at hc
              simp only [Bool.not_eq_false] at hen
              simpa [hen, hmk] using hc
            by_cases hiie : iie = false
            · simp [regionStep, hen, hmk, hini, hiie]
            · simp [regionStep, hen, hmk, hini, hiie]
      obtain ⟨ihc, ihp⟩ := ih (regionStep iie st0 r)
      refine ⟨?_, ?_⟩
      · rw [ihc, hkeep.1, List.filter_cons, if_neg hc]
      · rw [ihp, hkeep.2]
        unfold lastIp
        rw [List.filter_cons, if_neg hc]

end Region

section RegionSpecThms

variable {M I P C : Type}

/-- The bundle list the composer assembles: the background bundle (unless
the background reuses the initial image) followed by one bundle per
contributing region, in order. -/
def specBundles (iie bg_init : Bool) (bg_prompt : P) (bg_ip : Option I)
    (regions : List (RegionSpec M I P)) : List (Condi I P) :=
  (if (iie && bg_init) = true then [] else [⟨bg_prompt, bg_ip⟩]) ++
    (regions.filter contributes).map (fun r => Condi.mk r.prompt r.ip)

/-- The adapter-map fallback: the last-encountered adapter map across all
sources (background first, then contributing regions in order). -/
def specFallback (iie bg_init : Bool) (bg_ip : Option I)
    (regions : List (RegionSpec M I P)) : Option I :=
  lastIp (if (iie && bg_init) = true then none else bg_ip) regions

theorem list_isEmpty_map {A B : Type} (l : List A) (f : A → B) :
    (l.map f).isEmpty = l.isEmpty := by
  cases l <;> rfl

theorem isEmpty_fill_if (b : Bool) (prev : Option I) (X : List (Condi I P)) :
    (if b = true then X.map (fillWith prev) else X).isEmpty = X.isEmpty := by
  split
  · exact list_isEmpty_map X (fillWith prev)
  · rfl

theorem region_preprocess_none_iff (iie bg_init : Bool) (bg_prompt : P)
    (bg_ip : Option I) (regions : List (RegionSpec M I P)) (topCfg : C) :
    region_preprocess iie bg_init bg_prompt bg_ip regions topCfg = none ↔
      specBundles iie bg_init bg_prompt bg_ip regions = [] := by
  obtain ⟨hcondi, hprev⟩ := regionFold_spec (M := M) (I := I) (P := P) iie regions
    (if (iie && bg_init) = true then ⟨[], [⟨none, -1⟩], none, 0⟩
     else ⟨[⟨bg_prompt, bg_ip⟩], [⟨none, 0⟩], bg_ip, 1⟩)
  rw [apply_ite RegionState.condi] at hcondi
  simp only at hcondi
  simp only [region_preprocess]
  rw [hcondi, isEmpty_fill_if]
  unfold specBundles
  split
  · rcases hmap : (regions.filter contributes).map
        (fun r => Condi.mk (I := I) (P := P) r.prompt r.ip) with _ | ⟨c, cs⟩
    · simp [hmap]
    · simp [hmap]
  · simp

/-- C8 (region composer failure): composition raises the validation
error exactly when the background is flagged to reuse the initial image
(contributing no bundle) and no enabled region contributes a bundle;
conversely, whenever at least one bundle results, no error is raised. -/
theorem region_preprocess_error_iff (iie bg_init : Bool) (bg_prompt : P)
    (bg_ip : Option I) (regions : List (RegionSpec M I P)) (topCfg : C) :
    region_preprocess iie bg_init bg_prompt bg_ip regions topCfg = none ↔
      ((iie && bg_init) = true ∧ ∀ r ∈ regions, contributes r = false) := by
  rw [region_preprocess_none_iff iie bg_init bg_prompt bg_ip regions topCfg]
  unfold specBundles
  rw [List.append_eq_nil, List.map_eq_nil_iff, List.filter_eq_nil_iff]
  by_cases hbg : (iie && bg_init) = true
  · simp [hbg]
  · simp [hbg]


/-- C7 (amended): whenever at least one bundle results, the composer
returns the assembled bundles with every bundle that lacks its own
adapter map filled with the LAST-encountered adapter map across all
sources (background first, then contributing regions in order), and the
shared adapter configuration is the top-level `ip_adapter_map` settings
(`topCfg`) regardless of which source supplied the fallback — present
exactly when some source carried an adapter map. -/
theorem region_preprocess_fallback (iie bg_init : Bool) (bg_prompt : P)
    (bg_ip : Option I) (regions : List (RegionSpec M I P)) (topCfg : C)
    (hne : specBundles iie bg_init bg_prompt bg_ip regions ≠ []) :
    ∃ regs, region_preprocess iie bg_init bg_prompt bg_ip regions topCfg =
      some ((if (specFallback iie bg_init bg_ip regions).isSome then
          (specBundles iie bg_init bg_prompt bg_ip regions).map
            (fillWith (specFallback iie bg_init bg_ip regions))
        else specBundles iie bg_init bg_prompt bg_ip regions),
        regs,
        if (specFallback iie bg_init bg_ip regions).isSome then some topCfg
        else none) := by
  obtain ⟨hcondi, hprev⟩ := regionFold_spec (M := M) (I := I) (P := P) iie regions
    (if (iie && bg_init) = true then ⟨[], [⟨none, -1⟩], none, 0⟩
     else ⟨[⟨bg_prompt, bg_ip⟩], [⟨none, 0⟩], bg_ip, 1⟩)
  rw [apply_ite RegionState.condi] at hcondi
  rw [apply_ite RegionState.prev] at hprev
  simp only at hcondi hprev
  refine ⟨(List.foldl (regionStep iie)
      (if (iie && bg_init) = true then ⟨[], [⟨none, -1⟩], none, 0⟩
       else ⟨[⟨bg_prompt, bg_ip⟩], [⟨none, 0⟩], bg_ip, 1⟩) regions).regs, ?_⟩
  simp only [region_preprocess]
  rw [hcondi, hprev, isEmpty_fill_if]
  have hemp : ¬(((if (iie && bg_init) = true then ([] : List (Condi I P))
      else [⟨bg_prompt, bg_ip⟩]) ++ (regions.filter contributes).map
        (fun r => Condi.mk r.prompt r.ip)).isEmpty = true) := by
    rw [List.isEmpty_iff]
    exact hne
  rw [if_neg hemp]
  unfold specFallback specBundles
  rfl

/-- C7, counterexample to the claim as stated: the background supplies
adapter map `1` and region 1 supplies adapter map `2`; region 2, which
has no adapter map of its own, is filled with the LAST-encountered map
`2` — not with the first-encountered specification `1` as the claim
states. -/
theorem region_preprocess_first_counterexample :
    (region_preprocess false false (0 : ℕ) (some (1 : ℕ))
        [⟨true, false, some (0 : ℕ), some 2, 10⟩, ⟨true, false, some 0, none, 20⟩]
        (5 : ℕ)).map (fun out => out.1.map Condi.ip) =
      some [some 1, some 2, some 2] ∧
    (some (2 : ℕ)) ≠ some 1 := by
  exact ⟨by decide, by decide⟩

/-- Witness for `region_preprocess_fallback` at a concrete input. -/
theorem region_preprocess_fallback_witness :
    specBundles false false (0 : ℕ) (some (1 : ℕ))
        [⟨true, false, some (0 : ℕ), some 2, 10⟩, ⟨true, false, some 0, none, 20⟩] ≠ [] ∧
    ∃ regs, region_preprocess false false (0 : ℕ) (some (1 : ℕ))
        [⟨true, false, some (0 : ℕ), some 2, 10⟩, ⟨true, false, some 0, none, 20⟩]
        (5 : ℕ) =
      some ((if (specFallback false false (some (1 : ℕ))
            [⟨true, false, some (0 : ℕ), some 2, 10⟩,
              ⟨true, false, some 0, none, 20⟩]).isSome then
          (specBundles false false (0 : ℕ) (some (1 : ℕ))
            [⟨true, false, some (0 : ℕ), some 2, 10⟩,
              ⟨true, false, some 0, none, 20⟩]).map
            (fillWith (specFallback false false (some (1 : ℕ))
              [⟨true, false, some (0 : ℕ), some 2, 10⟩,
                ⟨true, false, some 0, none, 20⟩]))
        else specBundles false false (0 : ℕ) (some (1 : ℕ))
          [⟨true, false, some (0 : ℕ), some 2, 10⟩, ⟨true, false, some 0, none, 20⟩]),
        regs,
        if (specFallback false false (some (1 : ℕ))
            [⟨true, false, some (0 : ℕ), some 2, 10⟩,
              ⟨true, false, some 0, none, 20⟩]).isSome then some (5 : ℕ)
        else none) :=
  ⟨by decide,
    region_preprocess_fallback false false (0 : ℕ) (some (1 : ℕ))
      [⟨true, false, some (0 : ℕ), some 2, 10⟩, ⟨true, false, some 0, none, 20⟩]
      (5 : ℕ) (by decide)⟩

end RegionSpecThms
